import Mathlib

/-!
Verification development for the goatdb LSM key-value store.

The Go sources under `src/` are shallowly embedded: byte slices become
`List Nat` (each element a byte value), strings become `String`, machine
integers become `Nat`/`Int` with explicit wraparound where the source
truncates, and fallible operations return `Except`.  File I/O is modelled
as explicit state (a WAL segment is its name plus the byte list that has
been written to it; an SSTable file is its list of blocks plus its index).
The gzip compression of SSTable block payloads is modelled as a faithful
transport (the reader always receives exactly the lines the writer
compressed, which is what the happy path of the Go code guarantees); the
compressed size, which only influences file offsets, is kept abstract as a
parameter `gz`.
-/

set_option maxHeartbeats 1000000
set_option maxRecDepth 100000

namespace GoatDb

namespace Wal

/-! ### WAL entry codec, from `src/wal/errors.go` (`Entry.Encode`, `DecodeEntry`)

`crc32` is CRC32 with the IEEE polynomial exactly as `hash/crc32`'s
`ChecksumIEEE`: bit-reflected algorithm, reversed polynomial `0xEDB88320`,
initial value `0xFFFFFFFF`, final complement. -/

/-- One bit-step batch of the reflected CRC32 algorithm: `n` rounds of
shift-and-conditionally-xor with the reversed IEEE polynomial `0xEDB88320`. -/
def crcRounds : Nat → Nat → Nat
  | 0, c => c
  | n + 1, c => crcRounds n (if c % 2 = 1 then Nat.xor (c / 2) 3988292384 else c / 2)

/-- Feed one byte into the CRC state. -/
def crcUpdate (c b : Nat) : Nat := crcRounds 8 (Nat.xor c (b % 256))

/-- `crc32 data` is Go's `crc32.ChecksumIEEE(data)`. -/
def crc32 (data : List Nat) : Nat :=
  Nat.xor (data.foldl crcUpdate 4294967295) 4294967295

/-- Big-endian 4-byte encoding of a `uint32` value, as
`binary.BigEndian.PutUint32` (the argument is truncated mod `2^32`
byte-by-byte, matching Go's `uint32(·)` conversion). -/
def u32be (n : Nat) : List Nat :=
  [n / 16777216 % 256, n / 65536 % 256, n / 256 % 256, n % 256]

/-- Big-endian read of 4 bytes as a `uint32`, as `binary.BigEndian.Uint32`. -/
def beU32 (a b c d : Nat) : Nat := ((a * 256 + b) * 256 + c) * 256 + d

/-- `wal.Entry`: a logical mutation.  `type` is the byte tag
(`EntryPut = 1`, `EntryDelete = 2`), `key`/`value` are byte sequences. -/
structure Entry where
  type : Nat
  key : List Nat
  value : List Nat
deriving DecidableEq, Repr

instance : Inhabited Entry := ⟨⟨0, [], []⟩⟩

def EntryPut : Nat := 1

def EntryDelete : Nat := 2

/-- Well-formedness of an entry as constrained by the on-disk format:
the tag is one byte and the whole record length fits the `u32` frame and
length fields (`KeyLen`, `ValueLen` are `uint32`; the record is
`13 + |key| + |value|` bytes). -/
def Entry.wf (e : Entry) : Prop :=
  e.type < 256 ∧ 13 + e.key.length + e.value.length < 2 ^ 32

instance (e : Entry) : Decidable e.wf := by unfold Entry.wf; infer_instance

/-- The bytes after the CRC field:
`| Type (1) | KeyLen (4) | ValueLen (4) | Key | Value |`. -/
def encodeBody (e : Entry) : List Nat :=
  e.type % 256 :: (u32be e.key.length ++ (u32be e.value.length ++ (e.key ++ e.value)))

/-- `Entry.Encode` from `src/wal/errors.go`: the record
`| CRC (4) | Type (1) | KeyLen (4) | ValueLen (4) | Key | Value |` with the
CRC computed over everything after itself.  (The Go function's `error`
result is always `nil`.) -/
def Entry.Encode (e : Entry) : List Nat :=
  u32be (crc32 (encodeBody e)) ++ encodeBody e

/-- Decode failures of `DecodeEntry` (`ErrCorruptedEntry`,
`ErrChecksumMismatch` in `src/wal/errors.go`). -/
inductive DecodeErr where
  | corruptedEntry
  | checksumMismatch
deriving DecidableEq, Repr

/-- `DecodeEntry` from `src/wal/errors.go`.  A buffer shorter than 13 bytes
is `ErrCorruptedEntry`; then the stored CRC is compared against a
recomputation over `buf[4:]`; then the declared lengths are validated
against the remaining bytes; on success the key and value are copied out
(fresh lists in this model). -/
def DecodeEntry : List Nat → Except DecodeErr Entry
  | c0 :: c1 :: c2 :: c3 :: t :: k0 :: k1 :: k2 :: k3 :: v0 :: v1 :: v2 :: v3 :: rest =>
    if beU32 c0 c1 c2 c3 ≠ crc32 (t :: k0 :: k1 :: k2 :: k3 :: v0 :: v1 :: v2 :: v3 :: rest) then
      .error .checksumMismatch
    else
      let keyLen := beU32 k0 k1 k2 k3
      let valueLen := beU32 v0 v1 v2 v3
      if rest.length < keyLen + valueLen then
        .error .corruptedEntry
      else
        .ok ⟨t, rest.take keyLen, (rest.drop keyLen).take valueLen⟩
  | _ => .error .corruptedEntry

/-- The CRC state stays a 32-bit value. -/
lemma crcRounds_lt (n : Nat) (c : Nat) (h : c < 2 ^ 32) : crcRounds n c < 2 ^ 32 := by
  induction n generalizing c with
  | zero => simpa [crcRounds] using h
  | succ n ih =>
    rw [crcRounds]
    apply ih
    split
    · exact Nat.xor_lt_two_pow (by omega) (by norm_num)
    · omega

lemma crcUpdate_lt (c b : Nat) (h : c < 2 ^ 32) : crcUpdate c b < 2 ^ 32 := by
  exact crcRounds_lt 8 _ (Nat.xor_lt_two_pow h (by omega))

lemma foldl_crcUpdate_lt (data : List Nat) (c : Nat) (h : c < 2 ^ 32) :
    data.foldl crcUpdate c < 2 ^ 32 := by
  induction data generalizing c with
  | nil => simpa using h
  | cons b rest ih => exact ih _ (crcUpdate_lt c b h)

lemma crc32_lt (data : List Nat) : crc32 data < 2 ^ 32 := by
  exact Nat.xor_lt_two_pow (foldl_crcUpdate_lt data _ (by norm_num)) (by norm_num)

/-- Reading back a big-endian `u32` recovers the value. -/
lemma beU32_u32be (n : Nat) (h : n < 2 ^ 32) :
    beU32 (n / 16777216 % 256) (n / 65536 % 256) (n / 256 % 256) (n % 256) = n := by
  unfold beU32
  omega

lemma encodeBody_length (e : Entry) :
    (encodeBody e).length = 9 + e.key.length + e.value.length := by
  simp [encodeBody, u32be]
  omega

lemma Encode_length (e : Entry) :
    e.Encode.length = 13 + e.key.length + e.value.length := by
  simp [Entry.Encode, u32be, encodeBody_length]
  omega

/-- Round trip of the WAL entry codec: decoding an encoded entry recovers
it exactly, provided the tag is a byte and the lengths fit in `uint32`
(which is forced by Go's types `byte`/`[]byte` and the format's `u32`
length fields). -/
lemma decode_encode (e : Entry) (ht : e.type < 256)
    (hk : e.key.length < 2 ^ 32) (hv : e.value.length < 2 ^ 32) :
    DecodeEntry e.Encode = .ok e := by
  obtain ⟨t, key, value⟩ := e
  simp only [Entry.Encode, encodeBody, u32be] at *
  simp only [List.cons_append, List.nil_append, List.append_assoc] at *
  rw [DecodeEntry]
  rw [beU32_u32be _ (crc32_lt _)]
  simp only [ite_not, if_pos rfl]
  rw [beU32_u32be _ hk, beU32_u32be _ hv]
  have hlen : ¬ (key ++ value).length < key.length + value.length := by
    simp
  rw [if_neg hlen]
  rw [List.take_left, List.drop_left, List.take_length]
  simp [Nat.mod_eq_of_lt ht]

/-- The stored CRC field of a raw buffer (bytes 0-3, big-endian). -/
def storedCRC (buf : List Nat) : Nat :=
  beU32 (buf.getD 0 0) (buf.getD 1 0) (buf.getD 2 0) (buf.getD 3 0)

/-- The declared `KeyLen` field of a raw buffer (bytes 5-8, big-endian). -/
def declaredKeyLen (buf : List Nat) : Nat :=
  beU32 (buf.getD 5 0) (buf.getD 6 0) (buf.getD 7 0) (buf.getD 8 0)

/-- The declared `ValueLen` field of a raw buffer (bytes 9-12, big-endian). -/
def declaredValueLen (buf : List Nat) : Nat :=
  beU32 (buf.getD 9 0) (buf.getD 10 0) (buf.getD 11 0) (buf.getD 12 0)

end Wal

end GoatDb

instance {ε α : Type} [DecidableEq ε] [DecidableEq α] : DecidableEq (Except ε α)
  | .error a, .error b =>
    if h : a = b then .isTrue (by rw [h]) else .isFalse (by simp [h])
  | .error _, .ok _ => .isFalse (by simp)
  | .ok _, .error _ => .isFalse (by simp)
  | .ok a, .ok b =>
    if h : a = b then .isTrue (by rw [h]) else .isFalse (by simp [h])

namespace GoatDb

namespace Wal

/-- Claim C5: for every WAL entry (byte type tag, key and value byte
sequences whose lengths fit the format's `uint32` length fields), decoding
the encoding succeeds and yields the entry back, byte-for-byte.  (In this
value-level model the decoder's outputs are fresh lists by construction,
so the no-aliasing part of the claim has no separate content.) -/
theorem wal_roundtrip (e : Entry) (ht : e.type < 256)
    (hk : e.key.length < 2 ^ 32) (hv : e.value.length < 2 ^ 32) :
    DecodeEntry e.Encode = .ok e :=
  decode_encode e ht hk hv

/-- Witness for C5 at the concrete entry `Put "key" "val"`. -/
theorem wal_roundtrip_witness :
    DecodeEntry (Entry.Encode ⟨1, [107, 101, 121], [118, 97, 108]⟩)
      = .ok ⟨1, [107, 101, 121], [118, 97, 108]⟩ :=
  wal_roundtrip ⟨1, [107, 101, 121], [118, 97, 108]⟩ (by decide) (by decide) (by decide)

/-- Claim C6, counterexample to the claim as stated: this 13-byte buffer
declares `KeyLen = 6`, `ValueLen = 10` with zero bytes remaining after the
fixed prefix (so the claim demands `CorruptedEntry`), yet its stored CRC is
also wrong and `DecodeEntry` checks the CRC first, returning
`ChecksumMismatch`. -/
theorem decode_error_order_counterexample :
    declaredKeyLen [0, 0, 0, 0, 1, 0, 0, 0, 6, 0, 0, 0, 10] +
        declaredValueLen [0, 0, 0, 0, 1, 0, 0, 0, 6, 0, 0, 0, 10] = 16 ∧
    ([0, 0, 0, 0, 1, 0, 0, 0, 6, 0, 0, 0, 10] : List Nat).length = 13 ∧
    DecodeEntry [0, 0, 0, 0, 1, 0, 0, 0, 6, 0, 0, 0, 10] = .error .checksumMismatch := by
  exact ⟨by decide, by decide, by decide⟩

/-- Claim C6 as amended: `DecodeEntry` fails with `CorruptedEntry` on a
buffer shorter than 13 bytes; on a buffer of at least 13 bytes it first
fails with `ChecksumMismatch` when the stored CRC differs from one
recomputed over every byte after the CRC field, and only otherwise fails
with `CorruptedEntry` when the declared `KeyLen + ValueLen` exceeds the
bytes remaining after the 13-byte fixed prefix. -/
theorem decode_entry_errors (buf : List Nat) :
    (buf.length < 13 → DecodeEntry buf = .error .corruptedEntry) ∧
    (13 ≤ buf.length → storedCRC buf ≠ crc32 (buf.drop 4) →
      DecodeEntry buf = .error .checksumMismatch) ∧
    (13 ≤ buf.length → storedCRC buf = crc32 (buf.drop 4) →
      buf.length < 13 + declaredKeyLen buf + declaredValueLen buf →
      DecodeEntry buf = .error .corruptedEntry) := by
  rcases buf with _ | ⟨c0, _ | ⟨c1, _ | ⟨c2, _ | ⟨c3, _ | ⟨t, _ | ⟨k0, _ | ⟨k1, _ | ⟨k2, _ |
    ⟨k3, _ | ⟨v0, _ | ⟨v1, _ | ⟨v2, _ | ⟨v3, rest⟩⟩⟩⟩⟩⟩⟩⟩⟩⟩⟩⟩⟩
  all_goals try exact ⟨fun _ => rfl, fun h _ => by simp at h, fun h _ _ => by simp at h⟩
  refine ⟨fun h => by simp at h; omega, fun _ hcrc => ?_, fun _ hcrc hlen => ?_⟩
  · rw [DecodeEntry, if_pos]
    simpa [storedCRC, List.getD] using hcrc
  · have hcrc' : beU32 c0 c1 c2 c3 = crc32 (t :: k0 :: k1 :: k2 :: k3 :: v0 :: v1 :: v2 :: v3 :: rest) := by
      simpa [storedCRC, List.getD] using hcrc
    rw [DecodeEntry, if_neg (by simpa using hcrc')]
    rw [if_pos]
    simp only [declaredKeyLen, declaredValueLen, List.getD_cons_succ, List.getD_cons_zero,
      List.length_cons] at hlen ⊢
    omega

/-- Witness for the amended C6 theorem, exercising the short-buffer arm at
a concrete 3-byte buffer. -/
theorem decode_entry_errors_witness :
    DecodeEntry [1, 2, 3] = .error .corruptedEntry :=
  (decode_entry_errors [1, 2, 3]).1 (by decide)

end Wal

end GoatDb

namespace GoatDb

namespace Wal

/-! ### WAL segments and manager, from `src/wal/segment.go` and the manager
file.

A segment is modelled as the byte list written to its file plus its
tracked write offset; `sync`/buffering is not modelled separately because
every modelled byte is durable (`Close` flushes before the reopen in the
claims considered here).  The manager's segment names come from a
monotone nanosecond timestamp; the model replaces `time.Now().UnixNano()`
by a strictly increasing counter `clock`, which is exactly the monotonicity
the naming scheme relies on. -/

/-- The on-disk frame of one record: `u32 BE length || record bytes`
(`segment.append`). -/
def frame (e : Entry) : List Nat := u32be e.Encode.length ++ e.Encode

/-- The content of a segment holding exactly the frames of `L`, in order. -/
def joinFrames (L : List Entry) : List Nat := (L.map frame).flatten

/-- Errors of `segment.read` (`WalError` operation labels). -/
inductive SegErr where
  | readSize
  | readEntry
  | decodeEntry (e : DecodeErr)
deriving DecidableEq, Repr

/-- `segment.read` frame parsing: repeatedly read a 4-byte big-endian
length then that many record bytes and decode them; clean EOF between
frames ends the stream, a truncated length or record is an error. -/
def parseFrames : List Nat → Except SegErr (List Entry)
  | [] => .ok []
  | a :: b :: c :: d :: rest =>
    if rest.length < beU32 a b c d then .error .readEntry
    else
      match DecodeEntry (rest.take (beU32 a b c d)) with
      | .error er => .error (.decodeEntry er)
      | .ok e =>
        match parseFrames (rest.drop (beU32 a b c d)) with
        | .error er => .error er
        | .ok es => .ok (e :: es)
  | _ => .error .readSize
termination_by l => l.length
decreasing_by simp only [List.length_drop, List.length_cons]; omega

/-- `segment` from `src/wal/segment.go`: backing file name, bytes written,
current write offset, configured max size. -/
structure Segment where
  name : String
  content : List Nat
  offset : Nat
  maxSize : Nat
deriving DecidableEq, Repr

/-- `segment.isFull`: `offset >= maxSize`. -/
def Segment.isFull (s : Segment) : Bool := decide (s.maxSize ≤ s.offset)

/-- `segment.append`: write the length-prefixed frame, advance the offset
by `4 + len(record)`. -/
def Segment.append (s : Segment) (e : Entry) : Segment :=
  { s with content := s.content ++ frame e, offset := s.offset + (frame e).length }

/-- `openSegment`: open (or create) the file and record its current size
as the write offset. -/
def openSegment (nm : String) (content : List Nat) (maxSize : Nat) : Segment :=
  { name := nm, content := content, offset := content.length, maxSize := maxSize }

/-- `segment.read`. -/
def Segment.read (s : Segment) : Except SegErr (List Entry) := parseFrames s.content

/-- The 20-digit zero-padded decimal rendering of `n` (big-endian digit
list), as `fmt.Sprintf("%020d", n)` for `n < 10^20`. -/
def digitsBE : Nat → Nat → List Char
  | 0, _ => []
  | l + 1, n => Char.ofNat (48 + n / 10 ^ l) :: digitsBE l (n % 10 ^ l)

def pad20 (n : Nat) : String := String.mk (digitsBE 20 n)

/-- Segment file name for creation timestamp `t`:
`fmt.Sprintf("%020d.wal", t)`. -/
def segName (t : Nat) : String := pad20 t ++ ".wal"

/-- `Manager` from the WAL manager file: sealed segments in order, the
active segment, the configured segment size, and the modelled timestamp
source. -/
structure Manager where
  sealed : List Segment
  active : Option Segment
  maxSegSize : Nat
  clock : Nat
deriving DecidableEq, Repr

/-- `Manager.rotateSegment`: sync the active segment (no-op here), create
a fresh segment under a strictly newer timestamp name, push the old active
segment onto the sealed list and promote the new one. -/
def Manager.rotate (m : Manager) : Manager :=
  { m with
    clock := m.clock + 1,
    sealed := m.sealed ++ (match m.active with | some a => [a] | none => []),
    active := some (openSegment (segName m.clock) [] m.maxSegSize) }

/-- `Manager.Append`: rotate if there is no active segment or it is full,
then append the whole frame to the active segment and sync. -/
def Manager.appendE (m : Manager) (e : Entry) : Manager :=
  let m1 := match m.active with
    | none => m.rotate
    | some a => if a.isFull then m.rotate else m
  match m1.active with
  | some a => { m1 with active := some (a.append e) }
  | none => m1

def appendAll (m : Manager) (S : List Entry) : Manager := S.foldl Manager.appendE m

/-- `strings.HasSuffix(name, ".wal")`. -/
def hasWalSuffix (s : String) : Bool := ".wal".toList.isSuffixOf s.toList

/-- Insertion step of the filename sort used by `Manager.recover`
(`sort.Strings` on the directory listing, then opening in that order). -/
def insertFile (x : String × List Nat) :
    List (String × List Nat) → List (String × List Nat)
  | [] => [x]
  | y :: ys => if x.1 < y.1 then x :: y :: ys else y :: insertFile x ys

def sortFiles (l : List (String × List Nat)) : List (String × List Nat) :=
  l.foldr insertFile []

/-- `NewManager`/`Manager.recover`: list the `.wal` files of the directory,
sort ascending by name, open each as a segment; the last becomes active and
the rest sealed; with no files at all, rotate to create a fresh active
segment. -/
def NewManager (files : List (String × List Nat)) (maxSegSize : Nat) (clock : Nat) :
    Manager :=
  let segs := (sortFiles (files.filter fun f => hasWalSuffix f.1)).map
    fun f => openSegment f.1 f.2 maxSegSize
  match segs.getLast? with
  | some a =>
    { sealed := segs.dropLast, active := some a, maxSegSize := maxSegSize, clock := clock }
  | none => Manager.rotate { sealed := [], active := none, maxSegSize := maxSegSize, clock := clock }

/-- `Manager.Close` flushes and closes every segment; all modelled bytes
are already durable, so the directory contents are unchanged. -/
def Manager.close (m : Manager) : Manager := m

/-- The directory contents backing a manager: sealed files then the active
file. -/
def Manager.dirFiles (m : Manager) : List (String × List Nat) :=
  (m.sealed.map fun s => (s.name, s.content)) ++
    (match m.active with | some a => [(a.name, a.content)] | none => [])

/-- Read every sealed segment in order (`Manager.ReadAll`, first loop). -/
def readSegs : List Segment → Except SegErr (List Entry)
  | [] => .ok []
  | s :: rest =>
    match s.read with
    | .error er => .error er
    | .ok es =>
      match readSegs rest with
      | .error er => .error er
      | .ok es2 => .ok (es ++ es2)

/-- `Manager.ReadAll`: all sealed segments in order, then the active one. -/
def Manager.ReadAll (m : Manager) : Except SegErr (List Entry) :=
  match readSegs m.sealed with
  | .error er => .error er
  | .ok es =>
    match m.active with
    | none => .ok es
    | some a =>
      match a.read with
      | .error er => .error er
      | .ok es2 => .ok (es ++ es2)

end Wal

end GoatDb

namespace GoatDb

namespace Wal

@[simp] lemma joinFrames_nil : joinFrames ([] : List Entry) = [] := rfl

lemma joinFrames_cons (e : Entry) (L : List Entry) :
    joinFrames (e :: L) = frame e ++ joinFrames L := by
  simp [joinFrames]

lemma joinFrames_concat (L : List Entry) (e : Entry) :
    joinFrames (L ++ [e]) = joinFrames L ++ frame e := by
  simp [joinFrames]

lemma frame_length (e : Entry) : (frame e).length = 4 + e.Encode.length := by
  simp [frame, u32be]
  omega

/-- A segment that holds exactly a list of well-formed frames parses back
to exactly those entries (`segment.read` inverts `segment.append`). -/
lemma parseFrames_joinFrames (L : List Entry) (hwf : ∀ e ∈ L, e.wf) :
    parseFrames (joinFrames L) = .ok L := by
  induction L with
  | nil => rw [joinFrames_nil, parseFrames]
  | cons e L ih =>
    obtain ⟨ht, hlen⟩ := hwf e (by simp)
    have henc := Encode_length e
    have hjf : joinFrames (e :: L) = u32be e.Encode.length ++ (e.Encode ++ joinFrames L) := by
      rw [joinFrames_cons, frame, List.append_assoc]
    rw [hjf]
    simp only [u32be, List.cons_append, List.nil_append]
    rw [parseFrames]
    rw [beU32_u32be _ (by omega)]
    rw [if_neg (by simp)]
    rw [List.take_left, List.drop_left]
    rw [decode_encode e ht (by omega) (by omega)]
    rw [ih (fun e' he' => hwf e' (by simp [he']))]

lemma digitChar_lt {d₁ d₂ : Nat} (h : d₁ < d₂) (h2 : d₂ < 10) :
    Char.ofNat (48 + d₁) < Char.ofNat (48 + d₂) := by
  interval_cases d₂ <;> interval_cases d₁ <;> decide

/-- Zero-padded fixed-width decimal renderings compare lexicographically
like the numbers they render, even with a common suffix attached. -/
lemma digitsBE_append_lt (l : Nat) (suf : List Char) :
    ∀ m n : Nat, m < n → n < 10 ^ l →
      digitsBE l m ++ suf < digitsBE l n ++ suf := by
  induction l with
  | zero => intro m n hmn hn; omega
  | succ l ih =>
    intro m n hmn hn
    have hP : 0 < 10 ^ l := Nat.pos_pow_of_pos l (by norm_num)
    have hd2 : n / 10 ^ l < 10 := by
      rw [Nat.div_lt_iff_lt_mul hP]
      calc n < 10 ^ (l + 1) := hn
        _ = 10 * 10 ^ l := by ring
    have hd1 : m / 10 ^ l ≤ n / 10 ^ l := Nat.div_le_div_right (le_of_lt hmn)
    rw [digitsBE, digitsBE]
    simp only [List.cons_append]
    rcases lt_or_eq_of_le hd1 with hlt | heq
    · exact List.Lex.rel (digitChar_lt hlt hd2)
    · rw [heq]
      refine List.Lex.cons ?_
      refine ih _ _ ?_ (Nat.mod_lt _ hP)
      have h1 := Nat.div_add_mod m (10 ^ l)
      have h2 := Nat.div_add_mod n (10 ^ l)
      rw [heq] at h1
      generalize hX : 10 ^ l * (n / 10 ^ l) = X at h1 h2
      omega

lemma segName_lt {a b : Nat} (h : a < b) (hb : b < 10 ^ 20) :
    segName a < segName b := by
  rw [String.lt_iff_toList_lt]
  have ha : (segName a).toList = digitsBE 20 a ++ ".wal".toList := by
    simp [segName, pad20]
  have hb' : (segName b).toList = digitsBE 20 b ++ ".wal".toList := by
    simp [segName, pad20]
  rw [ha, hb']
  exact digitsBE_append_lt 20 _ a b h hb

lemma hasWalSuffix_segName (t : Nat) : hasWalSuffix (segName t) = true := by
  rw [hasWalSuffix, List.isSuffixOf_iff_suffix]
  have : (segName t).toList = digitsBE 20 t ++ ".wal".toList := by
    simp [segName, pad20]
  rw [this]
  exact List.suffix_append _ _

lemma insertFile_of_lt (x : String × List Nat) (l : List (String × List Nat))
    (h : ∀ y ∈ l, x.1 < y.1) : insertFile x l = x :: l := by
  cases l with
  | nil => rfl
  | cons y ys =>
    rw [insertFile, if_pos (h y (by simp))]

/-- `sort.Strings` on an already strictly sorted file listing is the
identity. -/
lemma sortFiles_of_sorted (l : List (String × List Nat))
    (h : List.Pairwise (fun a b => a.1 < b.1) l) : sortFiles l = l := by
  induction l with
  | nil => rfl
  | cons x l ih =>
    rw [sortFiles] at *
    rw [List.foldr_cons, ih (List.Pairwise.of_cons h)]
    exact insertFile_of_lt x l (fun y hy => (List.pairwise_cons.mp h).1 y hy)

/-- The segment holding exactly the frames of `L`, created under timestamp
`t`. -/
def segOf (msz : Nat) (L : List Entry) (t : Nat) : Segment :=
  { name := segName t, content := joinFrames L, offset := (joinFrames L).length,
    maxSize := msz }

/-- A segment's entry list as produced by `Manager.Append`: either empty,
or its last entry was appended while the offset (the length of everything
before it) was still below the configured max size — so a segment exceeds
`maxSize` by less than one full frame. -/
def SegBounded (msz : Nat) (L : List Entry) : Prop :=
  L = [] ∨ ∃ L' e, L = L' ++ [e] ∧ (L' = [] ∨ (joinFrames L').length < msz)

/-- Reachable-state invariant of the WAL manager: the sealed segments and
the active segment each hold a whole-frame encoding of consecutive chunks
of the appended history, under strictly increasing timestamp names. -/
def Inv (msz : Nat) (m : Manager) (done : List Entry) : Prop :=
  ∃ (sl : List (List Entry × Nat)) (La : List Entry) (ta : Nat),
    m.maxSegSize = msz ∧
    m.active = some (segOf msz La ta) ∧
    m.sealed = sl.map (fun p => segOf msz p.1 p.2) ∧
    (sl.map Prod.fst).flatten ++ La = done ∧
    List.Chain' (· < ·) ((sl.map Prod.snd) ++ [ta]) ∧
    ta < m.clock ∧
    m.clock ≤ done.length + 1 ∧
    SegBounded msz La ∧ (∀ p ∈ sl, SegBounded msz p.1)

lemma isFull_iff (s : Segment) : s.isFull = true ↔ s.maxSize ≤ s.offset := by
  simp [Segment.isFull]

lemma inv_init (msz : Nat) : Inv msz (NewManager [] msz 0) [] := by
  refine ⟨[], [], 0, ?_, ?_, ?_, ?_, ?_, ?_, ?_, ?_, ?_⟩ <;>
    simp [NewManager, sortFiles, Manager.rotate, segOf, openSegment, SegBounded]


lemma inv_step (msz : Nat) (m : Manager) (done : List Entry) (e : Entry)
    (h : Inv msz m done) : Inv msz (m.appendE e) (done ++ [e]) := by
  obtain ⟨sl, La, ta, hmsz, hact, hsealed, hjoin, hchain, hta, hclock, hbnd, hbnds⟩ := h
  by_cases hfull : (segOf msz La ta).isFull = true
  · have happ : m.appendE e =
        { sealed := m.sealed ++ [segOf msz La ta],
          active := some (segOf msz [e] m.clock),
          maxSegSize := m.maxSegSize,
          clock := m.clock + 1 } := by
      simp only [Manager.appendE, hact, hfull, if_true, Manager.rotate]
      simp [segOf, openSegment, Segment.append, joinFrames, frame, hmsz]
    refine ⟨sl ++ [(La, ta)], [e], m.clock, ?_, ?_, ?_, ?_, ?_, ?_, ?_, ?_, ?_⟩
    · rw [happ]
      exact hmsz
    · rw [happ]
    · rw [happ]
      simp [hsealed]
    · simp only [List.map_append, List.map_cons, List.map_nil, List.flatten_append,
        List.flatten_cons, List.flatten_nil, List.append_nil, List.append_assoc]
      rw [← List.append_assoc, hjoin]
    · rw [List.map_append]
      simp only [List.map_cons, List.map_nil]
      refine List.chain'_append.mpr ⟨hchain, by simp, ?_⟩
      intro x hx y hy
      simp only [List.getLast?_concat, Option.mem_def, Option.some.injEq] at hx
      simp only [List.head?_cons, Option.mem_def, Option.some.injEq] at hy
      omega
    · simp only [happ]
      omega
    · simp only [happ, List.length_append, List.length_cons, List.length_nil]
      omega
    · exact Or.inr ⟨[], e, rfl, Or.inl rfl⟩
    · intro p hp
      rcases List.mem_append.mp hp with hp | hp
      · exact hbnds p hp
      · simp only [List.mem_singleton] at hp
        rw [hp]
        exact hbnd
  · have hlt : (joinFrames La).length < msz := by
      have h1 : ¬ (segOf msz La ta).maxSize ≤ (segOf msz La ta).offset :=
        fun hcon => hfull ((isFull_iff _).mpr hcon)
      simpa [segOf] using h1
    have happ : m.appendE e = { m with active := some (segOf msz (La ++ [e]) ta) } := by
      simp only [Manager.appendE, hact, hfull, if_false, Bool.false_eq_true]
      simp [Segment.append, segOf, joinFrames_concat]
    refine ⟨sl, La ++ [e], ta, ?_, ?_, ?_, ?_, ?_, ?_, ?_, ?_, ?_⟩
    · rw [happ]
      exact hmsz
    · rw [happ]
    · rw [happ]
      exact hsealed
    · rw [← List.append_assoc, hjoin]
    · exact hchain
    · rw [happ]
      exact hta
    · rw [happ]
      simp only [List.length_append, List.length_cons, List.length_nil]
      omega
    · exact Or.inr ⟨La, e, rfl, Or.inr hlt⟩
    · exact hbnds

lemma inv_appendAll (msz : Nat) (S : List Entry) :
    ∀ (m : Manager) (done : List Entry), Inv msz m done →
      Inv msz (appendAll m S) (done ++ S) := by
  induction S with
  | nil => intro m done h; simpa [appendAll] using h
  | cons e S ih =>
    intro m done h
    have h2 := ih (m.appendE e) (done ++ [e]) (inv_step msz m done e h)
    simpa [appendAll, List.append_assoc] using h2

lemma readSegs_segOf (msz : Nat) (sl : List (List Entry × Nat))
    (hwf : ∀ p ∈ sl, ∀ e ∈ p.1, e.wf) :
    readSegs (sl.map (fun p => segOf msz p.1 p.2)) = .ok (sl.map Prod.fst).flatten := by
  induction sl with
  | nil => rfl
  | cons p sl ih =>
    rw [List.map_cons, readSegs]
    rw [show (segOf msz p.1 p.2).read = parseFrames (joinFrames p.1) from rfl]
    rw [parseFrames_joinFrames p.1 (hwf p (by simp))]
    rw [ih (fun q hq e he => hwf q (by simp [hq]) e he)]
    simp

/-- Claim C7: appending any finite sequence of (format-respecting) entries
to a WAL manager over a fresh empty directory, closing it, and opening a
new manager over the resulting directory yields exactly the appended
sequence, in order, from `ReadAll` — for every segment size configuration
and reopen time. -/
theorem wal_durability (S : List Entry) (hwf : ∀ e ∈ S, e.wf)
    (hS : S.length + 1 < 10 ^ 20) (msz c2 : Nat) :
    (NewManager ((appendAll (NewManager [] msz 0) S).close.dirFiles) msz c2).ReadAll
      = .ok S := by
  have hinv := inv_appendAll msz S (NewManager [] msz 0) [] (inv_init msz)
  rw [List.nil_append] at hinv
  obtain ⟨sl, La, ta, hmsz, hact, hsealed, hjoin, hchain, hta, hclock, hbnd, hbnds⟩ := hinv
  rw [Manager.close]
  have hwfparts : ∀ p ∈ sl, ∀ e ∈ p.1, e.wf := by
    intro p hp e he
    apply hwf
    rw [← hjoin]
    exact List.mem_append.mpr (Or.inl (List.mem_flatten.mpr
      ⟨p.1, List.mem_map.mpr ⟨p, hp, rfl⟩, he⟩))
  have hwfLa : ∀ e ∈ La, e.wf := by
    intro e he
    apply hwf
    rw [← hjoin]
    exact List.mem_append.mpr (Or.inr he)
  have hpairN : List.Pairwise (· < ·) (sl.map Prod.snd ++ [ta]) :=
    List.chain'_iff_pairwise.mp hchain
  have htsbound : ∀ t ∈ sl.map Prod.snd ++ [ta], t < 10 ^ 20 := by
    intro t ht
    rcases List.mem_append.mp ht with h' | h'
    · have h1 : t < ta := (List.pairwise_append.mp hpairN).2.2 t h' ta (by simp)
      omega
    · simp only [List.mem_singleton] at h'
      omega
  have hdir : (appendAll (NewManager [] msz 0) S).dirFiles
      = (sl ++ [(La, ta)]).map (fun p => (segName p.2, joinFrames p.1)) := by
    simp [Manager.dirFiles, hsealed, hact, segOf]
  have hfilter : ((appendAll (NewManager [] msz 0) S).dirFiles.filter
      fun f => hasWalSuffix f.1) = (appendAll (NewManager [] msz 0) S).dirFiles := by
    rw [List.filter_eq_self]
    intro a ha
    rw [hdir] at ha
    obtain ⟨p, hp, rfl⟩ := List.mem_map.mp ha
    exact hasWalSuffix_segName p.2
  have hsnd : List.Pairwise (fun p q : List Entry × Nat => p.2 < q.2) (sl ++ [(La, ta)]) := by
    rw [← @List.pairwise_map _ _ Prod.snd]
    simpa using hpairN
  have hnames : List.Pairwise (fun a b : String × List Nat => a.1 < b.1)
      ((appendAll (NewManager [] msz 0) S).dirFiles) := by
    rw [hdir, List.pairwise_map]
    refine hsnd.imp_of_mem ?_
    intro p q hp hq hlt
    refine segName_lt hlt ?_
    refine htsbound q.2 ?_
    have : q.2 ∈ (sl ++ [(La, ta)]).map Prod.snd := List.mem_map.mpr ⟨q, hq, rfl⟩
    simpa using this
  have hsegs : ((sortFiles ((appendAll (NewManager [] msz 0) S).dirFiles.filter
        fun f => hasWalSuffix f.1)).map fun f => openSegment f.1 f.2 msz)
      = (sl.map fun p => segOf msz p.1 p.2) ++ [segOf msz La ta] := by
    rw [hfilter, sortFiles_of_sorted _ hnames, hdir]
    simp [openSegment, segOf]
  have hnew : NewManager ((appendAll (NewManager [] msz 0) S).dirFiles) msz c2
      = { sealed := sl.map fun p => segOf msz p.1 p.2,
          active := some (segOf msz La ta), maxSegSize := msz, clock := c2 } := by
    rw [NewManager]
    simp only [hsegs, List.getLast?_concat, List.dropLast_concat]
  rw [hnew, Manager.ReadAll]
  simp only
  rw [readSegs_segOf msz sl hwfparts]
  simp only
  rw [show (segOf msz La ta).read = parseFrames (joinFrames La) from rfl]
  rw [parseFrames_joinFrames La hwfLa]
  simp only
  rw [hjoin]

/-- Witness for C7: a two-entry sequence over a tiny (size-0) segment
configuration round-trips through close and reopen. -/
theorem wal_durability_witness :
    (NewManager ((appendAll (NewManager [] 0 0)
        [⟨1, [107], [118]⟩, ⟨2, [108], []⟩]).close.dirFiles) 0 0).ReadAll
      = .ok [⟨1, [107], [118]⟩, ⟨2, [108], []⟩] :=
  wal_durability [⟨1, [107], [118]⟩, ⟨2, [108], []⟩] (by decide) (by norm_num) 0 0

/-- Claim C10: after any append sequence from a fresh directory, every WAL
record lies entirely within a single segment file: each sealed segment's
content and the active segment's content are concatenations of whole
frames partitioning the appended history in order, and each segment holds
at most one frame appended past the configured max size (so a segment
exceeds `maxSegSize` by less than one full frame). -/
theorem wal_frames_within_one_segment (S : List Entry) (msz : Nat) :
    ∃ (parts : List (List Entry)) (La : List Entry),
      (appendAll (NewManager [] msz 0) S).sealed.map Segment.content
          = parts.map joinFrames ∧
      (∃ a, (appendAll (NewManager [] msz 0) S).active = some a ∧
        a.content = joinFrames La ∧ SegBounded msz La) ∧
      parts.flatten ++ La = S ∧
      (∀ L ∈ parts, SegBounded msz L) := by
  have hinv := inv_appendAll msz S (NewManager [] msz 0) [] (inv_init msz)
  rw [List.nil_append] at hinv
  obtain ⟨sl, La, ta, hmsz, hact, hsealed, hjoin, hchain, hta, hclock, hbnd, hbnds⟩ := hinv
  refine ⟨sl.map Prod.fst, La, ?_, ⟨segOf msz La ta, hact, rfl, hbnd⟩, hjoin, ?_⟩
  · rw [hsealed]
    simp [segOf]
  · intro L hL
    obtain ⟨p, hp, rfl⟩ := List.mem_map.mp hL
    exact hbnds p hp

end Wal

end GoatDb

namespace GoatDb

namespace Db

/-! ### LSM engine, from `src/db/db.go` (`LSM`)

External collaborators (the WAL manager's I/O and the `SSTableManager`
interface) can fail; their outcomes enter the model as explicit `Except`
parameters, in the positions where the Go methods call them.  Only the
state the claims mention (memtable, SSTable name list, threshold) is
carried; the WAL bytes themselves are covered by the `Wal` model above. -/

/-- `db.Entry`: a string key and a byte-slice value. -/
structure Entry where
  Key : String
  Value : List Nat
deriving DecidableEq, Repr

instance : Inhabited Entry := ⟨⟨"", []⟩⟩

/-- The memtable `map[string]Entry`, as an association list with unique
keys: insertion overwrites in place or appends a fresh binding. -/
def mtInsert (mt : List (String × Entry)) (e : Entry) : List (String × Entry) :=
  if mt.any fun p => p.1 = e.Key then
    mt.map fun p => if p.1 = e.Key then (e.Key, e) else p
  else mt ++ [(e.Key, e)]

def mtLookup (mt : List (String × Entry)) (k : String) : Option Entry :=
  (mt.find? fun p => p.1 = k).map Prod.snd

/-- The state of `LSM` that the claims are about. -/
structure LSMState where
  Memtable : List (String × Entry)
  Sstables : List String
  threshold : Nat
deriving DecidableEq, Repr

/-- `LSM.flushMemtableToDisk`: name the new SSTable after the current list
length, call the SSTable writer (outcome `writeRes`), then call
`RemoveOldSegments` (outcome `removeRes`, only logged on failure), then
clear the memtable and append the filename. -/
def flushMemtableToDisk (writeRes : Except String Unit) (removeRes : Except String Unit)
    (st : LSMState) : Except String Unit × LSMState :=
  let filename := "sstable_" ++ toString st.Sstables.length ++ ".sst"
  match writeRes with
  | .error e => (.error e, st)
  | .ok _ =>
    match removeRes with
    | _ =>
      (.ok (), { st with Memtable := [], Sstables := st.Sstables ++ [filename] })

/-- `LSM.Put`: append to the WAL (outcome `walRes`; on failure the error is
wrapped and the memtable untouched), insert into the memtable, and flush
when `len(memtable) > threshold - 1` (Go `int` arithmetic, hence the `Int`
comparison). -/
def put (walRes writeRes removeRes : Except String Unit) (st : LSMState) (e : Entry) :
    Except String Unit × LSMState :=
  match walRes with
  | .error msg => (.error ("failed to write to WAL: " ++ msg), st)
  | .ok _ =>
    let st := { st with Memtable := mtInsert st.Memtable e }
    if ((st.Memtable.length : Int) > (st.threshold : Int) - 1) then
      flushMemtableToDisk writeRes removeRes st
    else (.ok (), st)

/-- Put a sequence of entries with all external calls succeeding. -/
def putMany (st : LSMState) : List Entry → LSMState
  | [] => st
  | e :: es => putMany (put (.ok ()) (.ok ()) (.ok ()) st e).2 es

/-- Go's `string(entry.Key)` on the WAL key bytes (ASCII range in the
inputs considered here). -/
def strOfBytes (l : List Nat) : String := String.mk (l.map Char.ofNat)

/-- `LSM.recoverFromWAL`: fold the WAL entries left to right; a `Put`
record re-inserts into the memtable; any other record (in particular
`Delete`) is skipped. -/
def recoverFromWAL (st : LSMState) (entries : List Wal.Entry) : LSMState :=
  entries.foldl
    (fun st we =>
      if we.type = Wal.EntryPut then
        { st with Memtable := mtInsert st.Memtable ⟨strOfBytes we.key, we.value⟩ }
      else st)
    st

/-- Modelled from the claim's words (C3): the replay fold in which a `Put`
record inserts (later records overwriting earlier ones) and a `Delete`
record erases the key. -/
def claimedRecoverFold (entries : List Wal.Entry) : List (String × Entry) :=
  entries.foldl
    (fun mt we =>
      if we.type = Wal.EntryPut then mtInsert mt ⟨strOfBytes we.key, we.value⟩
      else if we.type = Wal.EntryDelete then mt.filter fun p => p.1 ≠ strOfBytes we.key
      else mt)
    []

/-- The replay fold actually performed by the code: `Put` inserts, every
other record type leaves the memtable unchanged. -/
def actualRecoverFold (mt : List (String × Entry)) (entries : List Wal.Entry) :
    List (String × Entry) :=
  entries.foldl
    (fun mt we =>
      if we.type = Wal.EntryPut then mtInsert mt ⟨strOfBytes we.key, we.value⟩ else mt)
    mt

/-- Claim C8: if the WAL append inside `Put` fails, `Put` returns the
wrapped error and the engine state — in particular the memtable — is
exactly as before the call, whatever the other collaborators would have
done. -/
theorem put_wal_failure (msg : String) (writeRes removeRes : Except String Unit)
    (st : LSMState) (e : Entry) :
    put (.error msg) writeRes removeRes st e
      = (.error ("failed to write to WAL: " ++ msg), st) := rfl

/-- Claim C9: when a `Put` crosses the flush threshold and the SSTable
write succeeds but `RemoveOldSegments` fails, the flush still completes:
the memtable is cleared, the new filename is appended, and `Put` returns
success; the cleanup failure is never surfaced. -/
theorem flush_cleanup_failure_ignored (msg : String) (st : LSMState) (e : Entry)
    (hflush : ((mtInsert st.Memtable e).length : Int) > (st.threshold : Int) - 1) :
    put (.ok ()) (.ok ()) (.error msg) st e
      = (.ok (), { st with
          Memtable := [],
          Sstables := st.Sstables ++ ["sstable_" ++ toString st.Sstables.length ++ ".sst"] }) := by
  simp [put, hflush, flushMemtableToDisk]

/-- Witness for C9 at threshold 1 from the empty state. -/
theorem flush_cleanup_failure_ignored_witness :
    put (.ok ()) (.ok ()) (.error "boom") ⟨[], [], 1⟩ ⟨"a", []⟩
      = (.ok (), { (⟨[], [], 1⟩ : LSMState) with
          Memtable := [],
          Sstables := ([] : List String)
            ++ ["sstable_" ++ toString (List.length ([] : List String)) ++ ".sst"] }) :=
  flush_cleanup_failure_ignored "boom" ⟨[], [], 1⟩ ⟨"a", []⟩ (by decide)

/-- Claim C3, counterexample to the claim as stated: replaying
`[Put "a" v, Delete "a"]` leaves `"a"` in the memtable (the code ignores
`Delete` records), while the claimed fold-with-erasure yields the empty
memtable. -/
theorem recover_delete_counterexample :
    (recoverFromWAL ⟨[], [], 10⟩ [⟨1, [97], [118]⟩, ⟨2, [97], []⟩]).Memtable
        = [("a", ⟨"a", [118]⟩)] ∧
    claimedRecoverFold [⟨1, [97], [118]⟩, ⟨2, [97], []⟩] = [] := by
  decide

/-- Claim C3 as amended: during recovery the final memtable is the
left-to-right fold of the WAL records in which each `Put` record
re-inserts its entry (later records overwriting earlier ones for the same
key) and each `Delete` record is ignored, leaving the memtable unchanged;
the rest of the engine state is untouched. -/
theorem recover_replays_puts (entries : List Wal.Entry) :
    ∀ st : LSMState, recoverFromWAL st entries
      = { st with Memtable := actualRecoverFold st.Memtable entries } := by
  induction entries with
  | nil => intro st; rfl
  | cons we es ih =>
    intro st
    by_cases h : we.type = Wal.EntryPut
    · have h1 : recoverFromWAL st (we :: es)
          = recoverFromWAL
              { st with Memtable := mtInsert st.Memtable ⟨strOfBytes we.key, we.value⟩ } es := by
        simp [recoverFromWAL, List.foldl_cons, h]
      rw [h1, ih]
      simp [actualRecoverFold, List.foldl_cons, h]
    · have h1 : recoverFromWAL st (we :: es) = recoverFromWAL st es := by
        simp [recoverFromWAL, List.foldl_cons, h]
      rw [h1, ih]
      simp [actualRecoverFold, List.foldl_cons, h]

lemma mtInsert_fresh (mt : List (String × Entry)) (e : Entry)
    (h : ∀ p ∈ mt, p.1 ≠ e.Key) : mtInsert mt e = mt ++ [(e.Key, e)] := by
  rw [mtInsert, if_neg]
  simp only [List.any_eq_true, not_exists, not_and]
  intro p hp
  simpa using h p hp

lemma putMany_append (l1 l2 : List Entry) :
    ∀ st : LSMState, putMany st (l1 ++ l2) = putMany (putMany st l1) l2 := by
  induction l1 with
  | nil => intro st; rfl
  | cons e l1 ih =>
    intro st
    rw [List.cons_append, putMany, putMany, ih]

/-- Below the flush threshold, putting fresh distinct keys just appends
them to the memtable and leaves the SSTable list alone. -/
lemma putMany_below (es : List Entry) :
    ∀ st : LSMState,
      (∀ e ∈ es, ∀ p ∈ st.Memtable, p.1 ≠ e.Key) →
      (es.map Entry.Key).Nodup →
      st.Memtable.length + es.length < st.threshold →
      putMany st es = { st with Memtable := st.Memtable ++ es.map fun e => (e.Key, e) } := by
  induction es with
  | nil => intro st _ _ _; simp [putMany]
  | cons e es ih =>
    intro st hfresh hnd hlen
    simp only [List.length_cons] at hlen
    rw [putMany]
    have hins : mtInsert st.Memtable e = st.Memtable ++ [(e.Key, e)] :=
      mtInsert_fresh _ _ (fun p hp => hfresh e (by simp) p hp)
    have hput : (put (.ok ()) (.ok ()) (.ok ()) st e).2
        = { st with Memtable := st.Memtable ++ [(e.Key, e)] } := by
      simp only [put, hins]
      rw [if_neg]
      simp only [List.length_append, List.length_cons, List.length_nil]
      omega
    rw [hput]
    rw [ih _ ?_ ?_ ?_]
    · simp
    · intro e' he' p hp
      rcases List.mem_append.mp hp with hp | hp
      · exact hfresh e' (by simp [he']) p hp
      · simp only [List.mem_singleton] at hp
        rw [hp]
        intro hcon
        simp only at hcon
        have hmem : e.Key ∈ es.map Entry.Key := by
          rw [hcon]
          exact List.mem_map.mpr ⟨e', he', rfl⟩
        exact (List.nodup_cons.mp (by simpa using hnd)).1 hmem
    · exact (List.nodup_cons.mp (by simpa using hnd)).2
    · simp only [List.length_append, List.length_cons, List.length_nil]
      omega

/-- Claim C2, counterexample to the claim as stated, at threshold `T = 1`:
after `T = 1` puts the memtable is empty and one SSTable exists (as
claimed), but the next put of a new key flushes again immediately, leaving
the memtable empty (not of size 1) and two SSTables (not one). -/
theorem flush_boundary_counterexample :
    (putMany ⟨[], [], 1⟩ [⟨"a", []⟩]).Memtable = [] ∧
    (putMany ⟨[], [], 1⟩ [⟨"a", []⟩]).Sstables.length = 1 ∧
    (put (.ok ()) (.ok ()) (.ok ()) (putMany ⟨[], [], 1⟩ [⟨"a", []⟩]) ⟨"b", []⟩).2.Memtable.length
      = 0 ∧
    (put (.ok ()) (.ok ()) (.ok ()) (putMany ⟨[], [], 1⟩ [⟨"a", []⟩]) ⟨"b", []⟩).2.Sstables.length
      = 2 := by
  decide

/-- Claim C2 as amended: for every threshold `T ≥ 2`, starting from the
empty engine, after `T` successful puts of distinct keys the memtable is
empty and the SSTable list is exactly `["sstable_0.sst"]`; one further put
of a new key leaves the memtable with exactly 1 entry and the SSTable list
of length 1. -/
theorem flush_boundary (T : Nat) (hT : 2 ≤ T) (es : List Entry)
    (hlen : es.length = T) (hnd : (es.map Entry.Key).Nodup) (e' : Entry)
    (hnew : e'.Key ∉ es.map Entry.Key) :
    (putMany ⟨[], [], T⟩ es).Memtable = [] ∧
    (putMany ⟨[], [], T⟩ es).Sstables = ["sstable_0.sst"] ∧
    (put (.ok ()) (.ok ()) (.ok ()) (putMany ⟨[], [], T⟩ es) e').2.Memtable.length = 1 ∧
    (put (.ok ()) (.ok ()) (.ok ()) (putMany ⟨[], [], T⟩ es) e').2.Sstables.length = 1 := by
  rcases List.eq_nil_or_concat es with rfl | ⟨init, lst, rfl⟩
  · simp at hlen
    omega
  · simp only [List.concat_eq_append] at hlen hnd hnew ⊢
    have hlinit : init.length = T - 1 := by
      simp only [List.length_append, List.length_cons, List.length_nil] at hlen
      omega
    have hndinit : (init.map Entry.Key).Nodup := by
      rw [List.map_append] at hnd
      exact (List.nodup_append.mp hnd).1
    have hmain : putMany ⟨[], [], T⟩ init
        = ⟨init.map fun e => (e.Key, e), [], T⟩ := by
      have := putMany_below init ⟨[], [], T⟩ (by intro _ _ p hp; simp at hp) hndinit
        (by simp [hlinit]; omega)
      simpa using this
    have hlst : ∀ p ∈ init.map fun e => (e.Key, e), p.1 ≠ lst.Key := by
      intro p hp
      obtain ⟨q, hq, rfl⟩ := List.mem_map.mp hp
      intro hcon
      simp only at hcon
      rw [List.map_append] at hnd
      have := (List.nodup_append.mp hnd).2.2
      exact this (List.mem_map.mpr ⟨q, hq, rfl⟩) (by simp [hcon])
    have hinslst : mtInsert (init.map fun e => (e.Key, e)) lst
        = (init.map fun e => (e.Key, e)) ++ [(lst.Key, lst)] :=
      mtInsert_fresh _ _ hlst
    have hT1 : putMany ⟨[], [], T⟩ (init ++ [lst])
        = ⟨[], ["sstable_0.sst"], T⟩ := by
      rw [putMany_append, hmain, putMany, putMany]
      have hfl : ((mtInsert (init.map fun e => (e.Key, e)) lst).length : Int)
          > ((⟨init.map fun e => (e.Key, e), [], T⟩ : LSMState).threshold : Int) - 1 := by
        rw [hinslst]
        simp only [List.length_append, List.length_map, List.length_cons, List.length_nil]
        simp only [hlinit]
        push_cast
        omega
      simp only [put, hinslst]
      rw [if_pos]
      · simp only [flushMemtableToDisk]
        simp only [List.nil_append]
        refine congrArg (fun s => ({ Memtable := [], Sstables := [s], threshold := T } : LSMState)) ?_
        decide
      · rw [← hinslst]
        exact hfl
    rw [hT1]
    refine ⟨rfl, rfl, ?_, ?_⟩
    · have hnofl : ¬ (((mtInsert ([] : List (String × Entry)) e').length : Int)
          > ((T : Int)) - 1) := by
        simp [mtInsert]
        omega
      simp only [put, mtInsert]
      rw [if_neg]
      · simp
      · simpa [mtInsert] using hnofl
    · have hnofl : ¬ (((mtInsert ([] : List (String × Entry)) e').length : Int)
          > ((T : Int)) - 1) := by
        simp [mtInsert]
        omega
      simp only [put, mtInsert]
      rw [if_neg]
      · simp
      · simpa [mtInsert] using hnofl

/-- Witness for the amended C2 theorem at `T = 2` with keys `a b` and the
further key `c`. -/
theorem flush_boundary_witness :
    (putMany ⟨[], [], 2⟩ [⟨"a", []⟩, ⟨"b", []⟩]).Memtable = [] ∧
    (putMany ⟨[], [], 2⟩ [⟨"a", []⟩, ⟨"b", []⟩]).Sstables = ["sstable_0.sst"] ∧
    (put (.ok ()) (.ok ()) (.ok ()) (putMany ⟨[], [], 2⟩ [⟨"a", []⟩, ⟨"b", []⟩])
      ⟨"c", []⟩).2.Memtable.length = 1 ∧
    (put (.ok ()) (.ok ()) (.ok ()) (putMany ⟨[], [], 2⟩ [⟨"a", []⟩, ⟨"b", []⟩])
      ⟨"c", []⟩).2.Sstables.length = 1 :=
  flush_boundary 2 (by decide) [⟨"a", []⟩, ⟨"b", []⟩] (by decide) (by decide)
    ⟨"c", []⟩ (by decide)

/-! ### SSTable writer and reader, from `src/db/sstablemanager.go`

The SSTable file is modelled structurally: a list of blocks (each holding
its file offset, its entry count, its decompressed payload lines, and the
chained next-block offset) plus the index.  Gzip compression is a faithful
transport in the happy path (the reader decompresses exactly what the
writer compressed and the block checksum matches by construction), so only
the compressed payload length matters for the file layout; it enters the
model as an abstract parameter `gz : List String → Nat`.  Every claim is
settled for arbitrary `gz`, or at an explicitly instantiated one. -/

/-- The standard base64 alphabet (RFC 4648), as used by
`base64.StdEncoding`. -/
def b64Alphabet : List Char :=
  "ABCDEFGHIJKLMNOPQRSTUVWXYZabcdefghijklmnopqrstuvwxyz0123456789+/".toList

def b64Char (n : Nat) : Char := b64Alphabet.getD n 'A'

/-- `base64.StdEncoding.EncodeToString` over a byte list, with `=`
padding. -/
def base64Encode : List Nat → List Char
  | [] => []
  | [a] => [b64Char (a / 4 % 64), b64Char (a % 4 * 16), '=', '=']
  | [a, b] => [b64Char (a / 4 % 64), b64Char (a % 4 * 16 + b / 16), b64Char (b % 16 * 4), '=']
  | a :: b :: c :: rest =>
    b64Char (a / 4 % 64) :: b64Char (a % 4 * 16 + b / 16) ::
      b64Char (b % 16 * 4 + c / 64) :: b64Char (c % 64) :: base64Encode rest

def hexDigit (n : Nat) : Char := "0123456789abcdef".toList.getD n '0'

/-- Go `encoding/json`'s `\u00XX` escape. -/
def uEscape (n : Nat) : List Char :=
  ['\\', 'u', hexDigit (n / 4096 % 16), hexDigit (n / 256 % 16),
    hexDigit (n / 16 % 16), hexDigit (n % 16)]

/-- Go `encoding/json` string escaping (HTML escaping on, as in
`json.Marshal`): quote and backslash get a backslash, newline/return/tab
their short forms, other control characters and `<`, `>`, `&` the `\u00XX`
form. -/
def jsonEscapeChar (c : Char) : List Char :=
  if c = '"' ∨ c = '\\' then ['\\', c]
  else if c = '\n' then ['\\', 'n']
  else if c = '\r' then ['\\', 'r']
  else if c = '\t' then ['\\', 't']
  else if c.toNat < 32 ∨ c = '<' ∨ c = '>' ∨ c = '&' then uEscape c.toNat
  else [c]

def jsonString (s : String) : List Char :=
  '"' :: (s.toList.map jsonEscapeChar).flatten ++ ['"']

/-- `json.Marshal` of `db.Entry` (struct field order `Key`, `Value`; the
byte-slice `Value` marshals to its standard base64 encoding as a JSON
string). -/
def entryToJson (e : Entry) : List Char :=
  Char.ofNat 123 :: (jsonString "Key" ++ [':'] ++ jsonString e.Key ++ [','] ++
    jsonString "Value" ++ [':'] ++ jsonString (String.mk (base64Encode e.Value))) ++
    [Char.ofNat 125]

/-- `serializeToBase64`: base64 of the UTF-8 bytes of the JSON rendering
(the inputs considered are ASCII, for which the code-point list is the
byte list). -/
def serializeToBase64 (e : Entry) : String :=
  String.mk (base64Encode ((entryToJson e).map Char.toNat))

/-- One on-disk text line of a block:
`fmt.Sprintf("%s,%s", item.Key, serialized)`. -/
def lineOf (e : Entry) : String := e.Key ++ "," ++ serializeToBase64 e

/-- Go's byte-wise lexicographic `<` on strings, over the code-point
lists (identical to the UTF-8 byte order, since UTF-8 preserves
code-point order). -/
def charListLt : List Char → List Char → Bool
  | [], [] => false
  | [], _ :: _ => true
  | _ :: _, [] => false
  | a :: as, b :: bs =>
    if a.toNat < b.toNat then true
    else if b.toNat < a.toNat then false
    else charListLt as bs

def strLt (a b : String) : Bool := charListLt a.toList b.toList

/-- `strings.Split(line, ",")`: split on every comma. -/
def splitCommaAux : List Char → List Char → List (List Char)
  | acc, [] => [acc.reverse]
  | acc, c :: rest =>
    if c = ',' then acc.reverse :: splitCommaAux [] rest
    else splitCommaAux (c :: acc) rest

def splitComma (s : String) : List String := (splitCommaAux [] s.toList).map String.mk

/-- Insertion step of the writer's `sort.Slice(data, data[i].Key <
data[j].Key)` (modelled as insertion sort; the claims' inputs are
duplicate-free, for which any comparison sort yields this order). -/
def insertEntry (x : Entry) : List Entry → List Entry
  | [] => [x]
  | y :: ys => if strLt x.Key y.Key then x :: y :: ys else y :: insertEntry x ys

def sortEntries (l : List Entry) : List Entry := l.foldr insertEntry []

/-- One index entry: exact start/end keys recorded for a block and the
block's file offset. -/
structure IndexEntry where
  startKey : String
  endKey : String
  blockOffset : Nat
deriving DecidableEq, Repr

instance : Inhabited IndexEntry := ⟨⟨"", "", 0⟩⟩

/-- One data block: header fields and the (conceptually compressed)
payload lines. -/
structure Block where
  offset : Nat
  entryCount : Nat
  lines : List String
  nextBlockOffset : Nat
deriving DecidableEq, Repr

instance : Inhabited Block := ⟨⟨0, 0, [], 0⟩⟩

/-- The structural content of an SSTable file: its blocks in order, its
index, and the final `IndexOffset` recorded in the header. -/
structure SSTable where
  blocks : List Block
  index : List IndexEntry
  indexOffset : Nat
deriving DecidableEq, Repr

/-- `binary.Size(FileHeader)`: 4 + 8 + 4 + 8 + 4 bytes. -/
def headerSize : Nat := 28

/-- The block-emitting loop of `Write`: walk the sorted data with its
index `idx`, accumulate lines, and flush a block when 100 lines are
buffered or the current key equals the last key of the data; each flushed
block records `NextBlockOffset = currentOffset + compressedLen + 20` and
an index entry `[data[idx-blockSize+1].Key, data[idx].Key]` at the block's
offset. -/
def writeLoop (gz : List String → Nat) (data : List Entry) (blockSize : Nat)
    (lastKey : String) :
    Nat → List Entry → List String → Nat → List Block → List IndexEntry → SSTable
  | _, [], _, currentOffset, blocks, index => ⟨blocks, index, currentOffset⟩
  | idx, item :: rem, blockEntries, currentOffset, blocks, index =>
    let blockEntries := blockEntries ++ [lineOf item]
    if blockEntries.length = 100 ∨ item.Key = lastKey then
      let nextOff := currentOffset + gz blockEntries + 20
      writeLoop gz data blockSize lastKey (idx + 1) rem [] nextOff
        (blocks ++ [⟨currentOffset, blockEntries.length, blockEntries, nextOff⟩])
        (index ++ [⟨(data.getD (idx + 1 - blockSize) default).Key,
          (data.getD idx default).Key, currentOffset⟩])
    else
      writeLoop gz data blockSize lastKey (idx + 1) rem blockEntries currentOffset blocks index

/-- `SSTableFileSystemManager.Write`: sort the entries by key, fix
`blockSize = min 100 len`, and run the block loop from the first byte
after the header; the final offset is patched into the header as
`IndexOffset`. -/
def Write (gz : List String → Nat) (data0 : List Entry) : SSTable :=
  let data := sortEntries data0
  let blockSize := min 100 data.length
  let lastKey := ((data.getLast?).getD default).Key
  writeLoop gz data blockSize lastKey 0 data [] headerSize [] []

/-- Failures of `FindKey` / block reading / deserialization
(`key not found`, I/O or checksum failures, base64/JSON failures). -/
inductive FindErr where
  | keyNotFound (key : String)
  | readFailed
  | encodingError
deriving DecidableEq, Repr

/-- Base64 value of one alphabet character. -/
def b64Val (c : Char) : Option Nat :=
  if 'A' ≤ c ∧ c ≤ 'Z' then some (c.toNat - 65)
  else if 'a' ≤ c ∧ c ≤ 'z' then some (c.toNat - 97 + 26)
  else if '0' ≤ c ∧ c ≤ '9' then some (c.toNat - 48 + 52)
  else if c = '+' then some 62
  else if c = '/' then some 63
  else none

/-- `base64.StdEncoding.DecodeString` over a character list. -/
def base64Decode : List Char → Option (List Nat)
  | [] => some []
  | a :: b :: c :: d :: rest =>
    match b64Val a, b64Val b with
    | some va, some vb =>
      if c = '=' ∧ d = '=' ∧ rest = [] then some [va * 4 + vb / 16]
      else
        match b64Val c with
        | some vc =>
          if d = '=' ∧ rest = [] then some [va * 4 + vb / 16, vb % 16 * 16 + vc / 4]
          else
            match b64Val d, base64Decode rest with
            | some vd, some bytes =>
              some ((va * 4 + vb / 16) :: (vb % 16 * 16 + vc / 4) :: (vc % 4 * 64 + vd) :: bytes)
            | _, _ => none
        | none => none
    | _, _ => none
  | _ => none

/-- Reverse of the JSON string escaping, for the escape forms the encoder
emits. -/
def parseJsonStringAux : List Char → List Char → Option (String × List Char)
  | acc, '"' :: rest => some (String.mk acc.reverse, rest)
  | acc, '\\' :: e :: rest =>
    if e = '"' ∨ e = '\\' ∨ e = '/' then parseJsonStringAux (e :: acc) rest
    else if e = 'n' then parseJsonStringAux ('\n' :: acc) rest
    else if e = 'r' then parseJsonStringAux ('\r' :: acc) rest
    else if e = 't' then parseJsonStringAux ('\t' :: acc) rest
    else
      match e, rest with
      | 'u', h1 :: h2 :: h3 :: h4 :: rest' =>
        match "0123456789abcdef".toList.indexOf? h1, "0123456789abcdef".toList.indexOf? h2,
            "0123456789abcdef".toList.indexOf? h3, "0123456789abcdef".toList.indexOf? h4 with
        | some d1, some d2, some d3, some d4 =>
          parseJsonStringAux (Char.ofNat (((d1 * 16 + d2) * 16 + d3) * 16 + d4) :: acc) rest'
        | _, _, _, _ => none
      | _, _ => none
  | acc, c :: rest => parseJsonStringAux (c :: acc) rest
  | _, [] => none

def parseJsonString : List Char → Option (String × List Char)
  | '"' :: rest => parseJsonStringAux [] rest
  | _ => none

/-- Expect a literal character sequence. -/
def expectChars (pat : List Char) (cs : List Char) : Option (List Char) :=
  if cs.take pat.length = pat then some (cs.drop pat.length) else none

/-- `json.Unmarshal` into `db.Entry`, for the exact object shape the
writer produces: `{"Key":<string>,"Value":<base64 string>}`. -/
def parseEntryJson (cs : List Char) : Option Entry := do
  let cs ← expectChars [Char.ofNat 123] cs
  let cs ← expectChars (jsonString "Key" ++ [':']) cs
  let (k, cs) ← parseJsonString cs
  let cs ← expectChars ([','] ++ jsonString "Value" ++ [':']) cs
  let (v, cs) ← parseJsonString cs
  let cs ← expectChars [Char.ofNat 125] cs
  match cs with
  | [] => some ⟨k, (base64Decode v.toList).getD []⟩
  | _ => none

/-- `deserializeFromBase64`: base64-decode the payload, read the bytes as
text, and unmarshal the JSON object. -/
def deserializeFromBase64 (s : String) : Except FindErr Entry :=
  match base64Decode s.toList with
  | none => .error .encodingError
  | some bytes =>
    match parseEntryJson (bytes.map Char.ofNat) with
    | none => .error .encodingError
    | some e => .ok e

/-- `readBlockAt`: seek to a block offset and return its decompressed
lines; checksum and gzip round-trip by construction, a wrong offset is a
read failure. -/
def readBlockAt (t : SSTable) (off : Nat) : Except FindErr (List String) :=
  match t.blocks.find? fun b => b.offset = off with
  | some b => .ok b.lines
  | none => .error .readFailed

lemma tdiv2_bounds (l r : Int) (h : l ≤ r) :
    l ≤ (l + r).tdiv 2 ∧ (l + r).tdiv 2 ≤ r := by
  rcases le_or_lt 0 (l + r) with hs | hs
  · have := Int.tdiv_eq_ediv hs (by norm_num : (0 : Int) ≤ 2)
    omega
  · have h1 : (l + r).tdiv 2 = -((-(l + r)).tdiv 2) := by
      rw [← Int.neg_tdiv, neg_neg]
    have h2 := @Int.tdiv_eq_ediv (-(l + r)) 2 (by omega) (by norm_num)
    omega

/-- The index binary search of `FindKey`: `int32` cursors, Go `/`
truncating division, positional access to the `mid`-th variable-width
index entry, candidate on range hit, fallback offset recorded when moving
right, `targetOffset = 0` as the not-found sentinel. -/
def indexSearchGo (idx : List IndexEntry) (key : String) (left right : Int)
    (targetOffset : Nat) : Nat :=
  if h : left ≤ right then
    let mid := (left + right).tdiv 2
    let e := idx.getD mid.toNat default
    if e.startKey = key ∨ e.endKey = key ∨ (strLt e.startKey key ∧ strLt key e.endKey) then
      e.blockOffset
    else if strLt e.endKey key then
      indexSearchGo idx key (mid + 1) right e.blockOffset
    else
      indexSearchGo idx key left (mid - 1) targetOffset
  else targetOffset
termination_by (right + 1 - left).toNat
decreasing_by
  · have := tdiv2_bounds left right h
    omega
  · have := tdiv2_bounds left right h
    omega

/-- The in-block binary search of `FindKey`: the `Key` prefix (text before
the first comma) of the `mid`-th line decides a hit, but the move
left/right comparison is against the RAW LINE (`entries[blockMid] <
searchKey`), not the key prefix. -/
def blockSearchGo (entries : List String) (key : String) (left right : Int) :
    Except FindErr Entry :=
  if h : left ≤ right then
    let mid := (left + right).tdiv 2
    let line := entries.getD mid.toNat ""
    if (splitComma line).getD 0 "" = key then
      deserializeFromBase64 ((splitComma line).getD 1 "")
    else if strLt line key then
      blockSearchGo entries key (mid + 1) right
    else
      blockSearchGo entries key left (mid - 1)
  else .error (.keyNotFound key)
termination_by (right + 1 - left).toNat
decreasing_by
  · have := tdiv2_bounds left right h
    omega
  · have := tdiv2_bounds left right h
    omega

/-- `FindKey`: binary-search the index for a candidate block (offset 0
meaning none), read that block, then binary-search its lines. -/
def FindKey (t : SSTable) (searchKey : String) : Except FindErr Entry :=
  let targetOffset := indexSearchGo t.index searchKey 0 ((t.index.length : Int) - 1) 0
  if targetOffset = 0 then .error (.keyNotFound searchKey)
  else
    match readBlockAt t targetOffset with
    | .error e => .error e
    | .ok entries => blockSearchGo entries searchKey 0 ((entries.length : Int) - 1)

/-- A concrete compressed-size function for instantiating `gz` (the claims
settled by evaluation do not depend on block payload sizes). -/
def gzZero : List String → Nat := fun _ => 0

/-- Claim C1, evaluated at the failing input (code bug): the SSTable
written from the duplicate-free entries `{"a" ↦ v, "a!" ↦ w}` misses the
written key `"a!"`: the in-block binary search compares the raw line
`"a,<base64>"` (not its key prefix) against `"a!"`, and since `','` sorts
after `'!'` it walks left and returns `key not found`.  The sibling key
`"a"` is still found, so the file itself is well-formed. -/
theorem findkey_misses_written_key :
    ((⟨"a!", [119]⟩ : Entry) ∈ ([⟨"a", [118]⟩, ⟨"a!", [119]⟩] : List Entry)) ∧
    FindKey (Write gzZero [⟨"a", [118]⟩, ⟨"a!", [119]⟩]) "a!"
      = .error (.keyNotFound "a!") ∧
    FindKey (Write gzZero [⟨"a", [118]⟩, ⟨"a!", [119]⟩]) "a" = .ok ⟨"a", [118]⟩ := by
  have hw : Write gzZero [⟨"a", [118]⟩, ⟨"a!", [119]⟩]
      = ⟨[⟨28, 2, ["a,eyJLZXkiOiJhIiwiVmFsdWUiOiJkZz09In0=",
          "a!,eyJLZXkiOiJhISIsIlZhbHVlIjoiZHc9PSJ9"], 48⟩],
         [⟨"a", "a!", 28⟩], 48⟩ := by decide
  have hblock : readBlockAt (⟨[⟨28, 2, ["a,eyJLZXkiOiJhIiwiVmFsdWUiOiJkZz09In0=",
          "a!,eyJLZXkiOiJhISIsIlZhbHVlIjoiZHc9PSJ9"], 48⟩],
         [⟨"a", "a!", 28⟩], 48⟩ : SSTable) 28
      = .ok ["a,eyJLZXkiOiJhIiwiVmFsdWUiOiJkZz09In0=",
          "a!,eyJLZXkiOiJhISIsIlZhbHVlIjoiZHc9PSJ9"] := by decide
  refine ⟨by decide, ?_, ?_⟩
  · rw [hw, FindKey]
    norm_num
    rw [show indexSearchGo [⟨"a", "a!", 28⟩] "a!" 0 0 0 = 28 from by
      rw [indexSearchGo]; decide]
    norm_num
    rw [hblock]
    norm_num
    rw [blockSearchGo]
    norm_num [show Int.tdiv 1 2 = (0 : Int) from by decide,
      show ((0 : Int) + 1).tdiv 2 = 0 from by decide, strLt, charListLt,
      show ','.toNat = 44 from by decide, show '!'.toNat = 33 from by decide]
    rw [blockSearchGo]
    norm_num
    intro hcon
    exact absurd hcon (by decide)
  · rw [hw, FindKey]
    norm_num
    rw [show indexSearchGo [⟨"a", "a!", 28⟩] "a" 0 0 0 = 28 from by
      rw [indexSearchGo]; decide]
    norm_num
    rw [hblock]
    norm_num
    rw [blockSearchGo]
    decide

/-- 101 distinct, already-sorted keys `k000 .. k100`: the smallest input
on which the writer emits a full block and a trailing short block. -/
def entries101 : List Entry :=
  (List.range 101).map fun i => ⟨"k" ++ String.mk (Wal.digitsBE 3 i), []⟩

/-- Claim C4, evaluated at the failing input (code bug): writing 101
entries produces two blocks (100 + 1 entries), but the index entry of the
trailing short block records `StartKey = data[idx-blockSize+1].Key` with
`blockSize` frozen at 100, i.e. `"k001"` instead of the block's true first
key `"k100"`; consequently the two index ranges `["k000","k099"]` and
`["k001","k100"]` overlap. -/
theorem sstable_short_block_index_bug :
    ((Write gzZero entries101).index.map fun e => (e.startKey, e.endKey))
        = [("k000", "k099"), ("k001", "k100")] ∧
    ((Write gzZero entries101).blocks.map Block.entryCount) = [100, 1] ∧
    (splitComma (((Write gzZero entries101).blocks.getD 1 default).lines.getD 0 "")).getD 0 ""
        = "k100" ∧
    strLt "k001" "k099" = true := by
  exact ⟨by decide, by decide, by decide, by decide⟩

end Db

end GoatDb
